import Mathlib

/-!
Verification of the EchoNote audio-transcription core (`src/transcriber.py`)
against its natural-language specification.

The Python source is shallowly embedded in Lean:
* times (seconds, as produced by `Duration.total_seconds()`) are modelled as
  exact rationals `ℚ`;
* Python dictionaries such as the per-word "segment" records become Lean
  structures;
* the in-place mutation performed by `merge_transcript_chunks` on its input
  (`segment["start_time"] += total_duration`) is modelled by an explicit
  post-state function (`mergePostLoop`) returning the chunk list as the
  caller observes it after the call;
* audio (`pydub.AudioSegment`, after the `set_frame_rate(16000).set_channels(1)`
  normalisation) is modelled as a list of per-millisecond amplitudes `List ℚ`;
  pydub slices audio by milliseconds, so one list element stands for one
  millisecond of audio, abstracted to its amplitude.  `export(format="flac")`
  is lossless and is modelled as the identity on the sample list;
* exceptions are modelled with `Except`.
-/

namespace EchoNote

/-- One word-level entry of a chunk transcription, the dictionary built at
`transcriber.py` lines 126-131:
`{"word": ..., "start_time": ..., "end_time": ..., "speaker": ...}`. -/
structure Segment where
  word : String
  start_time : ℚ
  end_time : ℚ
  speaker : ℕ
deriving DecidableEq, Repr

/-- The dictionary returned by `transcribe_audio_chunk`
(`transcriber.py` lines 133-137). -/
structure ChunkResult where
  segments : List Segment
  speaker_count : ℕ
  transcript : String
deriving DecidableEq, Repr

/-- The dictionary returned by `merge_transcript_chunks`
(`transcriber.py` lines 174-178). -/
structure MergeResult where
  transcript_text : String
  speaker_count : ℕ
  duration_seconds : ℤ
deriving DecidableEq, Repr

/-- Python `int()` applied to an exact value: truncation toward zero
(`Int.tdiv` is T-division, matching CPython's `int(float)`). -/
def pyInt (q : ℚ) : ℤ := Int.tdiv q.num q.den

/-- `segment["start_time"] += total_duration; segment["end_time"] += total_duration`
(`transcriber.py` lines 153-154). -/
def shiftSegment (off : ℚ) (s : Segment) : Segment :=
  { s with start_time := s.start_time + off, end_time := s.end_time + off }

/-- `max(seg["end_time"] for seg in segments)` on a nonempty list
(`transcriber.py` line 158); 0 on the empty list (Python would raise,
but the call site guards on nonemptiness). -/
def maxEndOf : List Segment → ℚ
  | [] => 0
  | s :: t => t.foldl (fun m x => max m x.end_time) s.end_time

/-- The chunk loop of `merge_transcript_chunks` (`transcriber.py` lines
150-160): rebases every segment of each chunk by the running
`total_duration`, accumulates the rebased segments, advances
`total_duration` to the maximum rebased `end_time` of the chunk when the
chunk has segments, and folds the running maximum of `speaker_count`.
Returns (all_segments, total_duration, max_speaker_count). -/
def mergeLoop : List ChunkResult → ℚ → ℕ → List Segment → List Segment × ℚ × ℕ
  | [], off, spk, acc => (acc, off, spk)
  | c :: rest, off, spk, acc =>
      let shifted := c.segments.map (shiftSegment off)
      let off' := if c.segments.isEmpty then off else maxEndOf shifted
      mergeLoop rest off' (max spk c.speaker_count) (acc ++ shifted)

/-- The comparison used by `sorted(all_segments, key=lambda x: x["start_time"])`;
Python's `sorted` is a stable sort on this key. -/
def leStart (a b : Segment) : Bool := decide (a.start_time ≤ b.start_time)

/-- The rendering loop of `merge_transcript_chunks` (`transcriber.py` lines
163-172): walks the sorted segments keeping `current_speaker`
(`none` models Python's initial `None`), emitting `"\n"` before each
speaker label other than the first, then `"Speaker N: "`, and after each
segment its word followed by one space. -/
def renderLoop : List Segment → String → Option ℕ → String
  | [], text, _ => text
  | seg :: rest, text, cur =>
      let text :=
        if cur ≠ some seg.speaker then
          (if cur.isSome then text ++ "\n" else text) ++
            "Speaker " ++ toString seg.speaker ++ ": "
        else text
      renderLoop rest (text ++ seg.word ++ " ") (some seg.speaker)

/-- `merge_transcript_chunks` (`transcriber.py` lines 143-178); the final
`.strip()` is `String.trim` (the rendered text is ASCII, where the two
agree). -/
def merge_transcript_chunks (cs : List ChunkResult) : MergeResult :=
  { transcript_text :=
      (renderLoop ((mergeLoop cs 0 0 []).1.mergeSort leStart) "" none).trim
    speaker_count := (mergeLoop cs 0 0 []).2.2
    duration_seconds := pyInt (mergeLoop cs 0 0 []).2.1 }

/-- The state of the caller's `chunks_results` list after
`merge_transcript_chunks` returns: the Python code mutates each segment
dictionary in place (`transcriber.py` lines 153-154), so chunk `i`'s
segments are left shifted by the `total_duration` that was current when
chunk `i` was processed.  This function replays exactly the mutations of
the loop at lines 150-158 on the input list. -/
def mergePostLoop (off : ℚ) : List ChunkResult → List ChunkResult
  | [] => []
  | c :: rest =>
      let shifted := c.segments.map (shiftSegment off)
      let off' := if c.segments.isEmpty then off else maxEndOf shifted
      { c with segments := shifted } :: mergePostLoop off' rest

/-! ## Specification-side description of the timeline rebasing
(spec §4.3: running `timeline_offset` initialised to 0, advanced after each
chunk to the offset before the chunk plus the chunk's maximum local
end offset, or left unchanged when the chunk produced no words). -/

/-- The spec's timeline-offset recurrence for one chunk. -/
def offsetAfter (off : ℚ) (c : ChunkResult) : ℚ :=
  if c.segments.isEmpty then off else off + maxEndOf c.segments

/-- The timeline offset current when each chunk is processed, starting at
`off`. -/
def offsetsFrom (off : ℚ) : List ChunkResult → List ℚ
  | [] => []
  | c :: rest => off :: offsetsFrom (offsetAfter off c) rest

/-- The timeline offset after all chunks have been processed. -/
def finalOffset (off : ℚ) (cs : List ChunkResult) : ℚ := cs.foldl offsetAfter off

/-- One word of the remote recognition response
(`word_info` at `transcriber.py` lines 121-131): word text, start/end times
in seconds (`total_seconds()` of the protobuf durations) and the
diarization `speaker_tag`. -/
structure WordInfo where
  word : String
  start_time : ℚ
  end_time : ℚ
  speaker_tag : ℕ
deriving DecidableEq, Repr

/-- One entry of `response.results`, abstracted to the word list of its
chosen first alternative (`result.alternatives[0].words`,
`transcriber.py` lines 117-121). -/
structure RecResult where
  words : List WordInfo
deriving DecidableEq, Repr

/-- The response post-processing of `transcribe_audio_chunk`
(`transcriber.py` lines 113-137): the remote call itself is external; this
is the deterministic part that builds the `ChunkResult` dictionary from the
response.  The loop walks every word of every result in order, collecting
segment dictionaries, keeping the running maximum `speaker_tag` as
`speaker_count`, and joining the words with single spaces. -/
def transcribe_audio_chunk (response : List RecResult) : ChunkResult :=
  { segments := ((response.map (fun r => r.words)).flatten).map
      (fun w => ⟨w.word, w.start_time, w.end_time, w.speaker_tag⟩)
    speaker_count := ((response.map (fun r => r.words)).flatten).foldl
      (fun cnt w => if w.speaker_tag > cnt then w.speaker_tag else cnt) 0
    transcript := String.intercalate " "
      (((response.map (fun r => r.words)).flatten).map (fun w => w.word)) }

/-! ## Audio model: `convert_and_split_audio` and pydub's silence splitting

Audio after the `set_frame_rate(16000).set_channels(1)` normalisation is
modelled as a list of per-millisecond amplitudes (pydub addresses audio by
milliseconds; one element abstracts one millisecond of samples to its RMS
amplitude).  `convert_and_split_audio` (`transcriber.py` lines 41-90) calls
`pydub.silence.split_on_silence(audio, min_silence_len=1000,
silence_thresh=audio.dBFS - 14, keep_silence=500)`; the pydub library
functions `detect_silence`, `detect_nonsilent` and `split_on_silence`
(with `seek_step=1`) are embedded below from the pydub sources. -/

/-- `MAX_CHUNK_DURATION_MS = 5 * 60 * 1000` (`transcriber.py` line 20). -/
def MAX_CHUNK_DURATION_MS : ℕ := 5 * 60 * 1000

/-- Normalised audio: one rational amplitude per millisecond. -/
abbrev AudioMs := List ℚ

/-- Sum of squared amplitudes. -/
def sumSq (l : List ℚ) : ℚ := (l.map (fun x => x * x)).sum

/-- Mean square amplitude (square of the RMS). -/
def meanSq (l : List ℚ) : ℚ := sumSq l / (l.length : ℚ)

/-- pydub millisecond slicing `audio[i : i + len]`. -/
def sliceMs (audio : AudioMs) (i len : ℕ) : AudioMs := (audio.drop i).take len

/-- pydub's window silence test `audio_slice.rms <= silence_thresh` with
`silence_thresh = db_to_float(audio.dBFS - 14) * max_possible_amplitude`,
i.e. `rms(slice) ≤ rms(audio) * 10 ^ (-0.7)`.  Both sides are nonnegative,
so squaring and raising to the 5th power gives the equivalent exact
rational comparison `meanSq(slice)^5 * 10^7 ≤ meanSq(audio)^5`
(the integer rounding pydub applies to `rms` is abstracted away).
When `rms(audio) = 0` pydub's threshold is 0 and both formulations accept
exactly the all-zero windows. -/
def silentSlice (audio slice : AudioMs) : Bool :=
  decide (meanSq slice ^ 5 * 10 ^ 7 ≤ meanSq audio ^ 5)

/-- The range-combining loop of pydub `detect_silence`: walks the detected
silent window starts with state (current_range_start, prev_i), closing a
range `[current_range_start, prev_i + 1000]` whenever the next start is
neither continuous (`prev_i + 1`) nor within `prev_i + 1000`. -/
def combineLoop (curStart prev : ℕ) : List ℕ → List (ℕ × ℕ)
  | [] => [(curStart, prev + 1000)]
  | s :: rest =>
      if s ≠ prev + 1 ∧ s > prev + 1000 then
        (curStart, prev + 1000) :: combineLoop s s rest
      else combineLoop curStart s rest

/-- pydub `detect_silence` range combination: short-circuits to `[]` when
no silent window was found, else pops the first start and runs the loop. -/
def combineStarts : List ℕ → List (ℕ × ℕ)
  | [] => []
  | p :: rest => combineLoop p p rest

/-- pydub `detect_silence(audio, min_silence_len=1000, thresh, seek_step=1)`:
returns `[]` when the audio is shorter than the window; otherwise tests the
window starting at every millisecond `0 .. len - 1000` and combines the
silent starts into ranges. -/
def detect_silence (audio : AudioMs) : List (ℕ × ℕ) :=
  if audio.length < 1000 then []
  else
    combineStarts ((List.range (audio.length - 1000 + 1)).filter
      (fun i => silentSlice audio (sliceMs audio i 1000)))

/-- The complementation loop of pydub `detect_nonsilent`: emits
`[prev_end, start]` for every silent range and a final `[last_end, n]`
when the last silent range does not reach the end. -/
def buildNonsilent (n : ℕ) : ℕ → List (ℕ × ℕ) → List (ℕ × ℕ)
  | _, [] => []
  | prevEnd, [(s, e)] => (prevEnd, s) :: (if e ≠ n then [(e, n)] else [])
  | prevEnd, (s, e) :: rest => (prevEnd, s) :: buildNonsilent n e rest

/-- pydub `detect_nonsilent`: whole range when there is no silence, empty
when the first silent range covers everything, otherwise the complement of
the silent ranges with a leading `[0, 0]` popped. -/
def detect_nonsilent (audio : AudioMs) : List (ℕ × ℕ) :=
  match detect_silence audio with
  | [] => [(0, audio.length)]
  | (s, e) :: rest =>
      if s = 0 ∧ e = audio.length then []
      else
        match buildNonsilent audio.length 0 ((s, e) :: rest) with
        | (0, 0) :: rest' => rest'
        | nr => nr

/-- The pairwise overlap-fixing pass of pydub `split_on_silence`: for each
adjacent pair of padded ranges with `next_start < last_end`, both are set
to the floor midpoint `(last_end + next_start) // 2` (Python `//` is floor
division, `Int.fdiv`). -/
def adjustOverlaps : List (ℤ × ℤ) → List (ℤ × ℤ)
  | [] => []
  | [r] => [r]
  | (s1, e1) :: (s2, e2) :: rest =>
      if s2 < e1 then
        (s1, Int.fdiv (e1 + s2) 2) :: adjustOverlaps ((Int.fdiv (e1 + s2) 2, e2) :: rest)
      else (s1, e1) :: adjustOverlaps ((s2, e2) :: rest)
termination_by l => l.length

/-- Python slice `audio[max(start, 0) : min(end, len(audio))]`. -/
def sliceClamped (audio : AudioMs) (s e : ℤ) : AudioMs :=
  (audio.drop (max s 0).toNat).take ((min e (audio.length : ℤ) - max s 0).toNat)

/-- The nonsilent ranges padded by `keep_silence = 500` on each side and
run through the overlap-fixing pass: the ranges whose slices
`split_on_silence` returns. -/
def outputRanges (audio : AudioMs) : List (ℤ × ℤ) :=
  adjustOverlaps ((detect_nonsilent audio).map
    (fun r => ((r.1 : ℤ) - 500, (r.2 : ℤ) + 500)))

/-- pydub `split_on_silence(audio, 1000, audio.dBFS - 14, 500)`. -/
def split_on_silence (audio : AudioMs) : List AudioMs :=
  (outputRanges audio).map (fun r => sliceClamped audio r.1 r.2)

/-- The greedy regrouping loop of `convert_and_split_audio`
(`transcriber.py` lines 67-83): accumulate consecutive silence-delimited
segments into `current` while the combined length stays at or under
`MAX_CHUNK_DURATION_MS`; otherwise flush `current` (if non-empty) and start
over from the segment; finally flush the remainder.  `export` to FLAC is
lossless and modelled as the identity, so chunks are sample lists. -/
def greedyLoop : List AudioMs → AudioMs → List AudioMs → List AudioMs
  | [], current, acc => if current.length > 0 then acc ++ [current] else acc
  | c :: rest, current, acc =>
      if current.length + c.length ≤ MAX_CHUNK_DURATION_MS then
        greedyLoop rest (current ++ c) acc
      else if current.length > 0 then
        greedyLoop rest c (acc ++ [current])
      else greedyLoop rest c acc

/-- `convert_and_split_audio` (`transcriber.py` lines 41-90) on normalised
audio: a single whole-buffer chunk when the duration is at most
`MAX_CHUNK_DURATION_MS`, otherwise the greedy regrouping of the
silence-split segments. -/
def convert_and_split_audio (audio : AudioMs) : List AudioMs :=
  if audio.length ≤ MAX_CHUNK_DURATION_MS then [audio]
  else greedyLoop (split_on_silence audio) [] []

/-- The error taxonomy of the chunk transcription call (spec §4.2/§7). -/
inductive TranscriptionError where
  | remoteUnavailable
  | remoteTimeout
  | remoteRejected
deriving DecidableEq, Repr

/-- `transcribe_audio_file` (`transcriber.py` lines 184-211): upload the
audio (external, modelled by the given `gcs_uri`), split it, transcribe
every chunk sequentially — an exception raised by any chunk's
transcription propagates and aborts the job — then merge the results and
attach the GCS URI.  The remote per-chunk transcription is the parameter
`t`. -/
def transcribe_audio_file (t : AudioMs → Except TranscriptionError ChunkResult)
    (audio : AudioMs) (gcs_uri : String) :
    Except TranscriptionError (MergeResult × String) := do
  let results ← (convert_and_split_audio audio).mapM t
  pure (merge_transcript_chunks results, gcs_uri)

/-! ## Specification-side rendering (for claim C6)

The spec describes the rendering as: group the sorted rebased words into
maximal runs of one speaker, label each run `"Speaker N: "`, join the words
of a run with single spaces, and put a newline before every label but the
first. -/

/-- The words of one speaker turn as the code emits them: every word
followed by one space. -/
def wordsText : List String → String
  | [] => ""
  | w :: ws => w ++ " " ++ wordsText ws

/-- The words of one speaker turn as the spec describes them: single-space
separation, no trailing space. -/
def specWordsText (ws : List String) : String := String.intercalate " " ws

/-- Render a list of speaker runs: each run is labelled
`"Speaker N: "`, its words are rendered by `f`, and a newline precedes
every label except the first. -/
def renderRuns (f : List String → String) : List (ℕ × List String) → String
  | [] => ""
  | [(t, ws)] => "Speaker " ++ toString t ++ ": " ++ f ws
  | (t, ws) :: rest => "Speaker " ++ toString t ++ ": " ++ f ws ++ "\n" ++ renderRuns f rest

/-- Group consecutive segments with the same speaker tag into maximal runs
(speaker tag together with the run's words, in order). -/
def groupRuns : List Segment → List (ℕ × List String)
  | [] => []
  | s :: rest =>
      match groupRuns rest with
      | [] => [(s.speaker, [s.word])]
      | (t, ws) :: more =>
          if s.speaker = t then (t, s.word :: ws) :: more
          else (s.speaker, [s.word]) :: (t, ws) :: more

/-- The text the rendering loop appends after state `cur`
(`renderLoop l text cur = text ++ renderFrom cur l`). -/
def renderFrom : Option ℕ → List Segment → String
  | _, [] => ""
  | cur, s :: rest =>
      (if cur ≠ some s.speaker then
          (if cur.isSome then "\n" else "") ++ "Speaker " ++ toString s.speaker ++ ": "
        else "") ++ s.word ++ " " ++ renderFrom (some s.speaker) rest

/-- Continuation form of the run rendering: what follows an already-open
speaker turn `t`. -/
def contFrom (t : ℕ) : List (ℕ × List String) → String
  | [] => ""
  | (t', ws) :: more =>
      if t' = t then
        wordsText ws ++ (if more.isEmpty then "" else "\n" ++ renderRuns wordsText more)
      else "\n" ++ renderRuns wordsText ((t', ws) :: more)

/-- The transcript text exactly as the spec's rendering sentence describes
it (single-space joined words, newline before each later label). -/
def claimedRender (cs : List ChunkResult) : String :=
  renderRuns specWordsText (groupRuns ((mergeLoop cs 0 0 []).1.mergeSort leStart))

/-! ## Lemmas -/

/-- Chunks with no segments and speaker count 0 leave the merge state
unchanged. -/
theorem mergeLoop_trivial (cs : List ChunkResult)
    (h : ∀ c ∈ cs, c.segments = [] ∧ c.speaker_count = 0) :
    ∀ (off : ℚ) (spk : ℕ) (acc : List Segment), mergeLoop cs off spk acc = (acc, off, spk) := by
  induction cs with
  | nil => intro off spk acc; rfl
  | cons c rest ih =>
      intro off spk acc
      obtain ⟨h1, h2⟩ := h c (List.mem_cons_self c rest)
      show mergeLoop rest _ _ _ = _
      rw [h1, h2]
      simp only [List.map_nil, List.isEmpty_nil, if_true, List.append_nil, Nat.max_zero]
      exact ih (fun c hc => h c (List.mem_cons_of_mem _ hc)) off spk acc

theorem le_foldl_max (l : List ℕ) (a : ℕ) : a ≤ l.foldl max a := by
  induction l generalizing a with
  | nil => exact le_refl a
  | cons x xs ih => exact le_trans (le_max_left a x) (ih (max a x))

theorem mem_le_foldl_max (l : List ℕ) (a : ℕ) : ∀ x ∈ l, x ≤ l.foldl max a := by
  induction l generalizing a with
  | nil => intro x hx; simp at hx
  | cons y ys ih =>
      intro x hx
      rcases List.mem_cons.mp hx with h | h
      · subst h; exact le_trans (le_max_right a x) (le_foldl_max ys (max a x))
      · exact ih (max a y) x h

theorem foldl_max_mem (l : List ℕ) (a : ℕ) : l.foldl max a = a ∨ l.foldl max a ∈ l := by
  induction l generalizing a with
  | nil => exact Or.inl rfl
  | cons y ys ih =>
      rcases ih (max a y) with h | h
      · rcases Nat.le_total a y with hy | hy
        · right
          rw [List.foldl_cons, h, max_eq_right hy]
          exact List.mem_cons_self y ys
        · left; rw [List.foldl_cons, h, max_eq_left hy]
      · right; right; exact h

theorem foldl_maxEnd_shift (t : List Segment) (a off : ℚ) :
    (t.map (shiftSegment off)).foldl (fun m x => max m x.end_time) (a + off)
      = t.foldl (fun m x => max m x.end_time) a + off := by
  induction t generalizing a with
  | nil => rfl
  | cons x xs ih =>
      simp only [List.map_cons, List.foldl_cons, shiftSegment]
      rw [max_add_add_right, ih]

/-- Rebasing a whole chunk shifts its maximum end time by the offset:
the code's `max` over rebased end times equals the offset plus the
chunk-local maximum. -/
theorem maxEndOf_map_shift (off : ℚ) (l : List Segment) (h : ¬ l.isEmpty) :
    maxEndOf (l.map (shiftSegment off)) = off + maxEndOf l := by
  cases l with
  | nil => simp at h
  | cons s t =>
      show (t.map (shiftSegment off)).foldl (fun m x => max m x.end_time) (s.end_time + off)
        = off + t.foldl (fun m x => max m x.end_time) s.end_time
      rw [foldl_maxEnd_shift, add_comm]

/-- Closed form for the chunk loop of `merge_transcript_chunks`: the
accumulated segments are the chunks' segments each shifted by the offset
current when its chunk is processed, the final `total_duration` follows the
spec's offset recurrence, and the speaker count is the running maximum of
the per-chunk counts. -/
theorem mergeLoop_eq (cs : List ChunkResult) : ∀ (off : ℚ) (spk : ℕ) (acc : List Segment),
    mergeLoop cs off spk acc =
      (acc ++ (List.zipWith (fun o c => c.segments.map (shiftSegment o)) (offsetsFrom off cs) cs).flatten,
       finalOffset off cs,
       (cs.map (·.speaker_count)).foldl max spk) := by
  induction cs with
  | nil => intro off spk acc; simp [mergeLoop, offsetsFrom, finalOffset]
  | cons c rest ih =>
      intro off spk acc
      have hoff : (if c.segments.isEmpty then off else maxEndOf (c.segments.map (shiftSegment off)))
          = offsetAfter off c := by
        by_cases h : c.segments.isEmpty
        · simp [offsetAfter, h]
        · simp only [offsetAfter, h, if_false]
          exact maxEndOf_map_shift off _ h
      show mergeLoop rest (if c.segments.isEmpty then off else maxEndOf (c.segments.map (shiftSegment off)))
          (max spk c.speaker_count) (acc ++ c.segments.map (shiftSegment off)) = _
      rw [hoff, ih]
      simp [offsetsFrom, finalOffset, List.append_assoc]

/-- Closed form of the caller-visible post-state: after the merge each
chunk's segments are shifted in place by the timeline offset current when
that chunk was processed. -/
theorem mergePostLoop_eq (cs : List ChunkResult) : ∀ off : ℚ,
    mergePostLoop off cs
      = List.zipWith (fun o c => { c with segments := c.segments.map (shiftSegment o) })
          (offsetsFrom off cs) cs := by
  induction cs with
  | nil => intro off; rfl
  | cons c rest ih =>
      intro off
      have hoff : (if c.segments.isEmpty then off else maxEndOf (c.segments.map (shiftSegment off)))
          = offsetAfter off c := by
        by_cases h : c.segments.isEmpty
        · simp [offsetAfter, h]
        · simp only [offsetAfter, h, if_false]
          exact maxEndOf_map_shift off _ h
      show ({ c with segments := c.segments.map (shiftSegment off) }
            :: mergePostLoop (if c.segments.isEmpty then off
                  else maxEndOf (c.segments.map (shiftSegment off))) rest) = _
      rw [hoff, ih, offsetsFrom, List.zipWith_cons_cons]


theorem renderRuns_cons (f : List String → String) (t : ℕ) (ws : List String)
    (more : List (ℕ × List String)) :
    renderRuns f ((t, ws) :: more)
      = "Speaker " ++ toString t ++ ": " ++ f ws
          ++ (if more.isEmpty then "" else "\n" ++ renderRuns f more) := by
  cases more with
  | nil => simp [renderRuns, String.append_empty]
  | cons r rest => cases r; simp [renderRuns, List.isEmpty_cons, String.append_assoc]

/-- The rendering loop only ever appends to its accumulated text. -/
theorem renderLoop_append (l : List Segment) : ∀ (text : String) (cur : Option ℕ),
    renderLoop l text cur = text ++ renderFrom cur l := by
  induction l with
  | nil => intro text cur; simp [renderLoop, renderFrom, String.append_empty]
  | cons s rest ih =>
      intro text cur
      show renderLoop rest _ (some s.speaker) = _
      rw [ih]
      rcases cur with _ | t
      · simp [renderFrom, String.append_assoc, String.empty_append]
      · by_cases h : t = s.speaker
        · simp [renderFrom, h, String.append_assoc, String.empty_append]
        · simp [renderFrom, h, String.append_assoc, String.empty_append]

/-- The text the rendering loop emits after an open speaker turn, as a
function of the speaker runs. -/
theorem renderFrom_some (l : List Segment) : ∀ t : ℕ,
    renderFrom (some t) l = contFrom t (groupRuns l) := by
  induction l with
  | nil => intro t; rfl
  | cons s rest ih =>
      intro t
      simp only [renderFrom, Option.isSome_some, if_true]
      rw [ih s.speaker]
      simp only [groupRuns]
      cases hg : groupRuns rest with
      | nil =>
          by_cases h : s.speaker = t
          · subst h
            simp [contFrom, wordsText, String.append_empty, String.append_assoc,
              String.empty_append]
          · simp [contFrom, h, Ne.symm h, renderRuns, wordsText, String.append_empty,
              String.append_assoc, String.empty_append]
            rfl
      | cons r more =>
          obtain ⟨t', ws⟩ := r
          by_cases h1 : s.speaker = t'
          · subst h1
            by_cases h2 : s.speaker = t
            · subst h2
              simp [contFrom, wordsText, renderRuns_cons, String.append_assoc,
                String.empty_append]
            · simp [contFrom, h2, Ne.symm h2, wordsText, renderRuns_cons, String.append_assoc,
                String.empty_append]
              rfl
          · by_cases h2 : s.speaker = t
            · subst h2
              simp [contFrom, h1, Ne.symm h1, wordsText, renderRuns_cons,
                String.append_assoc, String.empty_append, List.isEmpty_cons]
            · simp [contFrom, h1, Ne.symm h1, h2, Ne.symm h2, wordsText, renderRuns_cons,
                String.append_assoc, String.empty_append, List.isEmpty_cons]
              rfl

/-- The rendering loop's output is the run-structured rendering in which
every word carries a trailing space. -/
theorem renderFrom_none (l : List Segment) :
    renderFrom none l = renderRuns wordsText (groupRuns l) := by
  cases l with
  | nil => rfl
  | cons s rest =>
      simp only [renderFrom, Option.isSome_none]
      rw [renderFrom_some rest s.speaker]
      simp only [groupRuns]
      cases hg : groupRuns rest with
      | nil =>
          simp [contFrom, renderRuns, wordsText, String.append_empty, String.append_assoc,
            String.empty_append]
      | cons r more =>
          obtain ⟨t', ws⟩ := r
          by_cases h1 : s.speaker = t'
          · subst h1
            simp [contFrom, wordsText, renderRuns_cons, String.append_assoc,
              String.empty_append]
          · simp [contFrom, h1, Ne.symm h1, wordsText, renderRuns_cons, String.append_assoc,
              String.empty_append, List.isEmpty_cons]

theorem sumSq_replicate_zero (k : ℕ) : sumSq (List.replicate k (0 : ℚ)) = 0 := by
  induction k with
  | zero => rfl
  | succ n ih => simp [sumSq, List.replicate_succ] at ih ⊢

theorem sumSq_replicate_one (k : ℕ) : sumSq (List.replicate k (1 : ℚ)) = k := by
  induction k with
  | zero => rfl
  | succ n ih =>
      simp only [sumSq, List.replicate_succ, List.map_cons, List.sum_cons] at ih ⊢
      rw [ih]
      push_cast
      ring

theorem meanSq_replicate_zero (k : ℕ) : meanSq (List.replicate k (0 : ℚ)) = 0 := by
  simp [meanSq, sumSq_replicate_zero]

theorem meanSq_replicate_one (k : ℕ) (hk : k ≠ 0) : meanSq (List.replicate k (1 : ℚ)) = 1 := by
  simp only [meanSq, sumSq_replicate_one, List.length_replicate]
  rw [div_self]
  exact_mod_cast hk

theorem sliceMs_replicate (a : ℚ) (n i w : ℕ) (h : i + w ≤ n) :
    sliceMs (List.replicate n a) i w = List.replicate w a := by
  simp only [sliceMs, List.drop_replicate, List.take_replicate]
  congr 1
  omega

/-- The range-combining loop on a run of consecutive window starts
produces a single silent range ending 1000 ms after the last start. -/
theorem combineLoop_chain (k : ℕ) : ∀ (a cs : ℕ),
    combineLoop cs a (List.range' (a + 1) k) = [(cs, a + k + 1000)] := by
  induction k with
  | zero => intro a cs; rfl
  | succ m ih =>
      intro a cs
      rw [List.range'_succ]
      simp only [combineLoop]
      rw [if_neg (by omega)]
      have h2 := ih (a + 1) cs
      rw [show a + 1 + 1 = a + 2 by omega] at h2
      rw [h2]
      simp only [List.cons.injEq, Prod.mk.injEq, and_true, true_and]
      omega

/-- On all-silent audio every window is silent, so `detect_silence`
returns the single range covering the whole buffer. -/
theorem detect_silence_zeros (n : ℕ) (h : 1000 ≤ n) :
    detect_silence (List.replicate n (0 : ℚ)) = [(0, n)] := by
  unfold detect_silence
  rw [List.length_replicate, if_neg (by omega)]
  have hfilter : (List.range (n - 1000 + 1)).filter
      (fun i => silentSlice (List.replicate n (0 : ℚ))
        (sliceMs (List.replicate n (0 : ℚ)) i 1000)) = List.range (n - 1000 + 1) := by
    rw [List.filter_eq_self]
    intro i hi
    rw [List.mem_range] at hi
    rw [sliceMs_replicate _ _ _ _ (by omega)]
    unfold silentSlice
    rw [meanSq_replicate_zero, meanSq_replicate_zero]
    norm_num
  rw [hfilter]
  rw [List.range_eq_range']
  cases hk : n - 1000 + 1 with
  | zero => omega
  | succ k =>
      rw [List.range'_succ]
      show combineLoop 0 0 (List.range' 1 k) = _
      have h2 := combineLoop_chain k 0 0
      norm_num at h2
      rw [h2]
      simp only [List.cons.injEq, Prod.mk.injEq, true_and, and_true]
      omega

/-- On constant loud audio no window is silent (the threshold sits
14 dB below the buffer's own loudness), so no silence is detected. -/
theorem detect_silence_ones (n : ℕ) (h : 1000 ≤ n) :
    detect_silence (List.replicate n (1 : ℚ)) = [] := by
  unfold detect_silence
  rw [List.length_replicate, if_neg (by omega)]
  have hfilter : (List.range (n - 1000 + 1)).filter
      (fun i => silentSlice (List.replicate n (1 : ℚ))
        (sliceMs (List.replicate n (1 : ℚ)) i 1000)) = [] := by
    rw [List.filter_eq_nil_iff]
    intro i hi
    rw [List.mem_range] at hi
    rw [sliceMs_replicate _ _ _ _ (by omega)]
    unfold silentSlice
    rw [meanSq_replicate_one 1000 (by omega), meanSq_replicate_one n (by omega)]
    norm_num
  rw [hfilter]
  rfl

/-- All-silent audio: `detect_nonsilent` returns no range, so the
splitter drops the entire buffer. -/
theorem split_on_silence_zeros (n : ℕ) (h : 1000 ≤ n) :
    split_on_silence (List.replicate n (0 : ℚ)) = [] := by
  have hd : detect_nonsilent (List.replicate n (0 : ℚ)) = [] := by
    unfold detect_nonsilent
    rw [detect_silence_zeros n h]
    simp [List.length_replicate]
  unfold split_on_silence outputRanges
  rw [hd]
  simp [adjustOverlaps]

/-- Continuous loud audio: the whole buffer comes back as one
silence-delimited segment (padding clamped to the buffer). -/
theorem split_on_silence_ones (n : ℕ) (h : 1000 ≤ n) :
    split_on_silence (List.replicate n (1 : ℚ)) = [List.replicate n (1 : ℚ)] := by
  have hd : detect_nonsilent (List.replicate n (1 : ℚ)) = [(0, n)] := by
    unfold detect_nonsilent
    rw [detect_silence_ones n h]
    simp [List.length_replicate]
  unfold split_on_silence outputRanges
  rw [hd]
  simp only [List.map_cons, List.map_nil, adjustOverlaps]
  unfold sliceClamped
  simp only [List.length_replicate, Nat.cast_zero]
  rw [show max ((0 : ℤ) - 500) 0 = 0 by decide]
  rw [min_eq_right (by omega : (n : ℤ) ≤ (n : ℤ) + 500)]
  simp [List.take_replicate, List.drop_replicate]

/-- 300001 ms of silence is split into zero chunks: all audio dropped. -/
theorem convert_zeros :
    convert_and_split_audio (List.replicate 300001 (0 : ℚ)) = [] := by
  unfold convert_and_split_audio
  rw [List.length_replicate, if_neg (by decide)]
  rw [split_on_silence_zeros 300001 (by decide)]
  rfl

/-- A single nonempty segment is returned as one chunk, whatever its
duration. -/
theorem greedyLoop_single (c : AudioMs) (h : 0 < c.length) : greedyLoop [c] [] [] = [c] := by
  show (if ([] : AudioMs).length + c.length ≤ MAX_CHUNK_DURATION_MS then
      greedyLoop [] (([] : AudioMs) ++ c) []
    else if ([] : AudioMs).length > 0 then greedyLoop [] c ([] ++ [([] : AudioMs)])
    else greedyLoop [] c []) = [c]
  by_cases h1 : ([] : AudioMs).length + c.length ≤ MAX_CHUNK_DURATION_MS
  · rw [if_pos h1]
    show (if (([] : AudioMs) ++ c).length > 0 then [] ++ [([] : AudioMs) ++ c] else []) = [c]
    simp [h]
  · rw [if_neg h1, if_neg (by simp)]
    show (if c.length > 0 then [] ++ [c] else []) = [c]
    rw [if_pos h]
    rfl

/-- 300001 ms of continuous loud audio comes back as one chunk of
300001 ms, exceeding `MAX_CHUNK_DURATION_MS`. -/
theorem convert_ones :
    convert_and_split_audio (List.replicate 300001 (1 : ℚ))
      = [List.replicate 300001 (1 : ℚ)] := by
  unfold convert_and_split_audio
  rw [List.length_replicate, if_neg (by decide)]
  rw [split_on_silence_ones 300001 (by decide)]
  exact greedyLoop_single _ (by rw [List.length_replicate]; omega)

/-- The greedy regrouping loop preserves the concatenation of the
segments: no sample of the splitter's output is lost or duplicated. -/
theorem greedyLoop_flatten : ∀ (segs : List AudioMs) (current : AudioMs) (acc : List AudioMs),
    (greedyLoop segs current acc).flatten = acc.flatten ++ current ++ segs.flatten := by
  intro segs
  induction segs with
  | nil =>
      intro current acc
      by_cases h : current.length > 0
      · simp [greedyLoop, h]
      · have : current = [] := by
          cases current with
          | nil => rfl
          | cons a l => simp at h
        subst this
        simp [greedyLoop]
  | cons c rest ih =>
      intro current acc
      show (if current.length + c.length ≤ MAX_CHUNK_DURATION_MS then
          greedyLoop rest (current ++ c) acc
        else if current.length > 0 then greedyLoop rest c (acc ++ [current])
        else greedyLoop rest c acc).flatten = _
      by_cases h1 : current.length + c.length ≤ MAX_CHUNK_DURATION_MS
      · rw [if_pos h1, ih]
        simp [List.append_assoc]
      · rw [if_neg h1]
        by_cases h2 : current.length > 0
        · rw [if_pos h2, ih]
          simp [List.append_assoc]
        · rw [if_neg h2]
          have : current = [] := by
            cases current with
            | nil => rfl
            | cons a l => simp at h2
          subst this
          rw [ih]
          simp

/-- The overlap-fixing pass never changes the first range's start. -/
theorem adjustOverlaps_head_fst : ∀ l : List (ℤ × ℤ),
    (adjustOverlaps l).head?.map Prod.fst = l.head?.map Prod.fst := by
  intro l
  match l with
  | [] => simp [adjustOverlaps]
  | [r] => simp [adjustOverlaps]
  | (s1, e1) :: (s2, e2) :: rest =>
      simp only [adjustOverlaps]
      by_cases h : s2 < e1
      · rw [if_pos h]; rfl
      · rw [if_neg h]; rfl

/-- After the overlap-fixing pass, adjacent ranges satisfy
`end ≤ next start`: the output ranges are non-overlapping and in order. -/
theorem chain'_adjustOverlaps (l : List (ℤ × ℤ)) :
    List.Chain' (fun a b => a.2 ≤ b.1) (adjustOverlaps l) := by
  induction l using adjustOverlaps.induct with
  | case1 => simp [adjustOverlaps]
  | case2 r => simp [adjustOverlaps]
  | case3 s1 e1 s2 e2 rest h ih =>
      simp only [adjustOverlaps, if_pos h]
      rw [List.chain'_cons']
      refine ⟨?_, ih⟩
      intro y hy
      have hh := adjustOverlaps_head_fst ((Int.fdiv (e1 + s2) 2, e2) :: rest)
      rw [hy] at hh
      simp at hh
      simp [hh]
  | case4 s1 e1 s2 e2 rest h ih =>
      simp only [adjustOverlaps, if_neg h]
      rw [List.chain'_cons']
      refine ⟨?_, ih⟩
      intro y hy
      have hh := adjustOverlaps_head_fst ((s2, e2) :: rest)
      rw [hy] at hh
      simp at hh
      simp only [hh]
      omega

/-! ## Claim theorems -/

/-- C1: `merge_transcript_chunks` maintains a running timeline offset
initialised to 0; every word of chunk `i` is shifted by the offset current
when chunk `i` is processed; after chunk `i` the offset advances to the
offset before the chunk plus the chunk's maximum local end offset (or is
unchanged when the chunk has no words); and the returned
`duration_seconds` is the final offset truncated to an integer. -/
theorem claim_C1 (cs : List ChunkResult) :
    (mergeLoop cs 0 0 []).1
        = (List.zipWith (fun o c => c.segments.map (shiftSegment o)) (offsetsFrom 0 cs) cs).flatten
      ∧ (mergeLoop cs 0 0 []).2.1 = finalOffset 0 cs
      ∧ (merge_transcript_chunks cs).duration_seconds = pyInt (finalOffset 0 cs) := by
  have h := mergeLoop_eq cs 0 0 []
  refine ⟨?_, ?_, ?_⟩
  · rw [h]; simp
  · rw [h]
  · unfold merge_transcript_chunks
    rw [h]

/-- C5: the returned `speaker_count` is the maximum over all chunks of the
chunk's local `speaker_count` (an upper bound of all of them, attained by
one of them unless it is 0); for local counts `[2, 5, 3]` it is 5, and for
no chunks it is 0. -/
theorem claim_C5 :
    (∀ cs : List ChunkResult,
        (merge_transcript_chunks cs).speaker_count = (cs.map (·.speaker_count)).foldl max 0
          ∧ (∀ c ∈ cs, c.speaker_count ≤ (merge_transcript_chunks cs).speaker_count)
          ∧ ((merge_transcript_chunks cs).speaker_count = 0
              ∨ (merge_transcript_chunks cs).speaker_count ∈ cs.map (·.speaker_count)))
      ∧ (merge_transcript_chunks [⟨[], 2, ""⟩, ⟨[], 5, ""⟩, ⟨[], 3, ""⟩]).speaker_count = 5
      ∧ (merge_transcript_chunks []).speaker_count = 0 := by
  refine ⟨?_, by with_unfolding_all decide, rfl⟩
  intro cs
  have h : (merge_transcript_chunks cs).speaker_count = (cs.map (·.speaker_count)).foldl max 0 := by
    unfold merge_transcript_chunks
    rw [mergeLoop_eq]
  refine ⟨h, ?_, ?_⟩
  · intro c hc
    rw [h]
    exact mem_le_foldl_max _ 0 c.speaker_count (List.mem_map_of_mem _ hc)
  · rw [h]
    exact foldl_max_mem (cs.map (·.speaker_count)) 0

/-- C5 witness: the upper-bound conjunct instantiated at a concrete chunk
list, discharging the membership hypothesis. -/
theorem claim_C5_witness :
    (merge_transcript_chunks [⟨[], 7, ""⟩]).speaker_count
        = (([⟨[], 7, ""⟩] : List ChunkResult).map (fun c => c.speaker_count)).foldl max 0
      ∧ (⟨[], 7, ""⟩ : ChunkResult).speaker_count
          ≤ (merge_transcript_chunks [⟨[], 7, ""⟩]).speaker_count :=
  ⟨(claim_C5.1 [⟨[], 7, ""⟩]).1,
    (claim_C5.1 [⟨[], 7, ""⟩]).2.1 ⟨[], 7, ""⟩ (List.mem_singleton.mpr rfl)⟩

/-- C9 counterexample: with chunk A = [("a",0..10,sp1), ("b",1..2,sp1)] and
chunk B whose first word starts at local offset 0, the global start offset
of B's first word after merging [A, B] is 10 (the maximum end offset of A),
not 2 (the end offset of A's last word), so the claim as stated fails. -/
theorem claim_C9_counterexample :
    ((mergeLoop [⟨[⟨"a", 0, 10, 1⟩, ⟨"b", 1, 2, 1⟩], 1, ""⟩, ⟨[⟨"c", 0, 1, 1⟩], 1, ""⟩]
          0 0 []).1.drop 2).head?.map (fun s => s.start_time) = some 10
      ∧ ([⟨"a", 0, 10, 1⟩, ⟨"b", 1, 2, 1⟩] : List Segment).getLast?.map (fun s => s.end_time)
          = some 2
      ∧ (10 : ℚ) ≠ 2 := by
  with_unfolding_all decide

/-- C9 (amended): for every non-empty chunk result A and chunk result B
whose first word has local start offset 0, merging [A, B] gives B's first
word the global start offset `maxEndOf A.segments` — the maximum end
offset over A's words (which is A's last word's end offset whenever A's
end offsets are non-decreasing). -/
theorem claim_C9_amended (A B : ChunkResult) (hA : ¬ A.segments.isEmpty)
    (hB : B.segments.head?.map (fun s => s.start_time) = some 0) :
    ((mergeLoop [A, B] 0 0 []).1.drop A.segments.length).head?.map (fun s => s.start_time)
      = some (maxEndOf A.segments) := by
  have hoffA : offsetAfter 0 A = maxEndOf A.segments := by
    simp [offsetAfter, hA]
  rw [mergeLoop_eq]
  simp only [offsetsFrom, List.zipWith_cons_cons, List.zipWith_nil_right, List.flatten_cons,
    List.flatten_nil, List.append_nil, List.nil_append]
  rw [List.drop_left' (by rw [List.length_map])]
  cases hBs : B.segments with
  | nil =>
      rw [hBs] at hB
      simp at hB
  | cons b t =>
      rw [hBs] at hB
      have hB0 : b.start_time = 0 := by simpa using hB
      show some (b.start_time + offsetAfter 0 A) = some (maxEndOf A.segments)
      rw [hB0, hoffA, zero_add]

/-- C9 witness: the amended statement at a concrete pair of chunks. -/
theorem claim_C9_witness :
    ((mergeLoop [⟨[⟨"a", 0, 1, 1⟩], 1, ""⟩, ⟨[⟨"b", 0, 2, 1⟩], 1, ""⟩] 0 0 []).1.drop 1).head?.map
        (fun s => s.start_time) = some (maxEndOf [⟨"a", 0, 1, 1⟩]) :=
  claim_C9_amended ⟨[⟨"a", 0, 1, 1⟩], 1, ""⟩ ⟨[⟨"b", 0, 2, 1⟩], 1, ""⟩ (by decide) (by decide)

/-- C10: `merge_transcript_chunks` mutates its input in place — after the
call, chunk `i`'s segments are shifted by the timeline offset current when
chunk `i` was processed, so a chunk with a positive offset and at least one
word no longer equals the chunk the caller passed in. -/
theorem claim_C10 (cs : List ChunkResult) :
    mergePostLoop 0 cs
        = List.zipWith (fun o c => { c with segments := c.segments.map (shiftSegment o) })
            (offsetsFrom 0 cs) cs
      ∧ ∀ (i : ℕ) (c : ChunkResult) (o : ℚ),
          (offsetsFrom 0 cs)[i]? = some o → cs[i]? = some c → 0 < o → c.segments ≠ [] →
            (mergePostLoop 0 cs)[i]? ≠ some c := by
  refine ⟨mergePostLoop_eq cs 0, ?_⟩
  intro i c o ho hc hpos hne heq
  rw [mergePostLoop_eq cs 0] at heq
  rw [List.getElem?_zipWith] at heq
  rw [ho, hc] at heq
  simp only [Option.map_some] at heq
  have h2 : ({ c with segments := c.segments.map (shiftSegment o) } : ChunkResult) = c :=
    Option.some.inj heq
  have h3 : c.segments.map (shiftSegment o) = c.segments := congrArg ChunkResult.segments h2
  cases hs : c.segments with
  | nil => exact hne hs
  | cons s t =>
      rw [hs, List.map_cons] at h3
      injection h3 with h4 h5
      have h6 : s.start_time + o = s.start_time := congrArg Segment.start_time h4
      exact hpos.ne' (add_right_eq_self.mp h6)

/-- C10 witness: a concrete merge of two one-word chunks in which the
second chunk's caller-visible state differs from the value passed in. -/
theorem claim_C10_witness :
    (mergePostLoop 0 [⟨[⟨"a", 0, 2, 1⟩], 1, ""⟩, ⟨[⟨"b", 0, 1, 1⟩], 1, ""⟩])[1]?
      ≠ some ⟨[⟨"b", 0, 1, 1⟩], 1, ""⟩ :=
  (claim_C10 [⟨[⟨"a", 0, 2, 1⟩], 1, ""⟩, ⟨[⟨"b", 0, 1, 1⟩], 1, ""⟩]).2 1
    ⟨[⟨"b", 0, 1, 1⟩], 1, ""⟩ 2 (by with_unfolding_all decide) (by decide)
    (by decide) (by decide)

/-- Sequentially transcribing a chunk list propagates the error of the
first chunk whose transcription fails. -/
theorem mapM_error_of_find (t : AudioMs → Except TranscriptionError ChunkResult)
    (e : TranscriptionError) :
    ∀ (l : List AudioMs) (c : AudioMs),
      l.find? (fun x => !(t x).isOk) = some c → t c = Except.error e →
        l.mapM t = Except.error e := by
  intro l
  induction l with
  | nil => intro c h; simp [List.find?] at h
  | cons x rest ih =>
      intro c hfind he
      rw [List.find?_cons] at hfind
      cases hb : (!(t x).isOk) with
      | true =>
          simp only [hb] at hfind
          have : x = c := Option.some.inj hfind
          subst this
          rw [List.mapM_cons, he]
          rfl
      | false =>
          simp only [hb] at hfind
          have hok : (t x).isOk = true := by
            revert hb; cases (t x).isOk <;> simp
          obtain ⟨v, hv⟩ : ∃ v, t x = Except.ok v := by
            cases hvv : t x with
            | ok v => exact ⟨v, rfl⟩
            | error er => rw [hvv] at hok; simp [Except.isOk, Except.toBool] at hok
          rw [List.mapM_cons, hv, ih c hfind he]
          rfl

/-- C7: if any chunk's transcription fails, the whole job fails with the
error of the first failing chunk (in chunk order) and no transcript result
is produced. -/
theorem claim_C7 (t : AudioMs → Except TranscriptionError ChunkResult)
    (audio : AudioMs) (gcs_uri : String)
    (hfail : ∃ c ∈ convert_and_split_audio audio, (t c).isOk = false) :
    ∃ c e, (convert_and_split_audio audio).find? (fun x => !(t x).isOk) = some c
      ∧ t c = Except.error e
      ∧ transcribe_audio_file t audio gcs_uri = Except.error e := by
  obtain ⟨c0, hc0, hf0⟩ := hfail
  obtain ⟨c, hc⟩ : ∃ c, (convert_and_split_audio audio).find? (fun x => !(t x).isOk) = some c := by
    apply Option.isSome_iff_exists.mp
    rw [List.find?_isSome]
    exact ⟨c0, hc0, by rw [hf0]; rfl⟩
  have hcprop : (!(t c).isOk) = true := by
    have := List.find?_some hc
    exact this
  obtain ⟨e, he⟩ : ∃ e, t c = Except.error e := by
    cases hvv : t c with
    | ok v => rw [hvv] at hcprop; simp [Except.isOk, Except.toBool] at hcprop
    | error er => exact ⟨er, rfl⟩
  refine ⟨c, e, hc, he, ?_⟩
  unfold transcribe_audio_file
  rw [mapM_error_of_find t e _ c hc he]
  rfl

/-- C7 witness: a short audio (one chunk) whose transcription is rejected. -/
theorem claim_C7_witness :
    ∃ c e, (convert_and_split_audio [1, 2, 3]).find?
        (fun x => !((fun _ => Except.error TranscriptionError.remoteRejected :
            AudioMs → Except TranscriptionError ChunkResult) x).isOk) = some c
      ∧ (fun _ => Except.error TranscriptionError.remoteRejected :
            AudioMs → Except TranscriptionError ChunkResult) c = Except.error e
      ∧ transcribe_audio_file
          (fun _ => Except.error TranscriptionError.remoteRejected) [1, 2, 3] "gs" =
            Except.error e :=
  claim_C7 (fun _ => Except.error TranscriptionError.remoteRejected) [1, 2, 3] "gs"
    ⟨[1, 2, 3], by with_unfolding_all decide, rfl⟩

/-- C8: merging zero chunks, or chunks produced from recognition responses
that contain zero words, succeeds and yields empty transcript text,
duration 0 and speaker count 0. -/
theorem claim_C8 :
    merge_transcript_chunks [] = ⟨"", 0, 0⟩
      ∧ ∀ rs : List (List RecResult),
          (∀ r ∈ rs, ∀ x ∈ r, x.words = []) →
            merge_transcript_chunks (rs.map transcribe_audio_chunk) = ⟨"", 0, 0⟩ := by
  constructor
  · unfold merge_transcript_chunks
    rw [List.mergeSort_of_sorted (by decide)]
    with_unfolding_all decide
  · intro rs h
    have hall : ∀ c ∈ rs.map transcribe_audio_chunk, c.segments = [] ∧ c.speaker_count = 0 := by
      intro c hc
      obtain ⟨r, hr, rfl⟩ := List.mem_map.mp hc
      have hw : (r.map (fun x => x.words)).flatten = [] := by
        rw [List.flatten_eq_nil_iff]
        intro l hl
        obtain ⟨x, hx, rfl⟩ := List.mem_map.mp hl
        exact h r hr x hx
      constructor
      · show ((r.map (fun x => x.words)).flatten).map _ = []
        rw [hw]; rfl
      · show ((r.map (fun x => x.words)).flatten).foldl _ 0 = 0
        rw [hw]; rfl
    unfold merge_transcript_chunks
    rw [mergeLoop_trivial _ hall]
    rw [List.mergeSort_nil]
    with_unfolding_all decide

/-- C8 witness: two all-empty responses (one with an empty result list). -/
theorem claim_C8_witness :
    merge_transcript_chunks ([[⟨[]⟩], []].map transcribe_audio_chunk) = ⟨"", 0, 0⟩ :=
  claim_C8.2 [[⟨[]⟩], []] (by decide)

/-- C2: audio whose normalised duration is at most `MAX_CHUNK_DURATION_MS`
is returned as exactly one chunk that is the whole buffer (no samples lost
or duplicated; the silence analysis branch is not taken). -/
theorem claim_C2 (audio : AudioMs) (h : audio.length ≤ MAX_CHUNK_DURATION_MS) :
    convert_and_split_audio audio = [audio] := by
  unfold convert_and_split_audio
  rw [if_pos h]

/-- C2 witness: a 3 ms audio buffer. -/
theorem claim_C2_witness : convert_and_split_audio [1, 2, 3] = [[1, 2, 3]] :=
  claim_C2 [1, 2, 3] (by decide)

/-- C6 counterexample: the code's rendered text carries a space before each
newline (every word is emitted with a trailing space), so it differs from
the spec's single-space-joined rendering on any transcript with two
speaker turns. -/
theorem claim_C6_counterexample :
    (merge_transcript_chunks [⟨[⟨"a", 0, 1, 1⟩, ⟨"b", 1, 2, 2⟩], 2, ""⟩]).transcript_text
        = "Speaker 1: a \nSpeaker 2: b"
      ∧ claimedRender [⟨[⟨"a", 0, 1, 1⟩, ⟨"b", 1, 2, 2⟩], 2, ""⟩] = "Speaker 1: a\nSpeaker 2: b"
      ∧ (merge_transcript_chunks [⟨[⟨"a", 0, 1, 1⟩, ⟨"b", 1, 2, 2⟩], 2, ""⟩]).transcript_text
          ≠ claimedRender [⟨[⟨"a", 0, 1, 1⟩, ⟨"b", 1, 2, 2⟩], 2, ""⟩] := by
  have h1 : (merge_transcript_chunks [⟨[⟨"a", 0, 1, 1⟩, ⟨"b", 1, 2, 2⟩], 2, ""⟩]).transcript_text
      = "Speaker 1: a \nSpeaker 2: b" := by
    unfold merge_transcript_chunks
    rw [List.mergeSort_of_sorted (by with_unfolding_all decide)]
    with_unfolding_all decide
  have h2 : claimedRender [⟨[⟨"a", 0, 1, 1⟩, ⟨"b", 1, 2, 2⟩], 2, ""⟩]
      = "Speaker 1: a\nSpeaker 2: b" := by
    unfold claimedRender
    rw [List.mergeSort_of_sorted (by with_unfolding_all decide)]
    with_unfolding_all decide
  exact ⟨h1, h2, by rw [h1, h2]; decide⟩

/-- C6 (amended): the transcript text is obtained by stably sorting the
rebased words by start offset (`mergeSort`; ties keep original order, and
sortedness holds), grouping them into maximal same-speaker runs, emitting
`"Speaker N: "` exactly at each run start with a newline before every
label but the first — but each word is emitted with a trailing space, so a
space precedes each newline (only the final trailing space is stripped). -/
theorem claim_C6_amended (cs : List ChunkResult) :
    (merge_transcript_chunks cs).transcript_text
        = (renderRuns wordsText (groupRuns ((mergeLoop cs 0 0 []).1.mergeSort leStart))).trim
      ∧ ((mergeLoop cs 0 0 []).1.mergeSort leStart).Pairwise
          (fun a b => a.start_time ≤ b.start_time)
      ∧ (((mergeLoop cs 0 0 []).1.enum).mergeSort (List.enumLE leStart)).map (fun p => p.2)
          = (mergeLoop cs 0 0 []).1.mergeSort leStart := by
  refine ⟨?_, ?_, List.mergeSort_enum⟩
  · show (renderLoop _ "" none).trim = _
    rw [renderLoop_append, String.empty_append, renderFrom_none]
  · have h := @List.sorted_mergeSort _ leStart
      (fun a b c hab hbc => by
        simp only [leStart, decide_eq_true_eq] at hab hbc ⊢
        exact le_trans hab hbc)
      (fun a b => by
        simp only [leStart, ← Bool.decide_or, decide_eq_true_eq]
        exact le_total a.start_time b.start_time)
      (mergeLoop cs 0 0 []).1
    exact h.imp (fun hab => by simpa [leStart, decide_eq_true_eq] using hab)

/-- C3 counterexample: 300001 ms of pure silence is split into zero
chunks — the concatenated chunk duration is 0 while the input lasts
300001 ms, so the chunks do not reconstruct the original audio and audio
is dropped. -/
theorem claim_C3_counterexample :
    convert_and_split_audio (List.replicate 300001 (0 : ℚ)) = []
      ∧ ((convert_and_split_audio (List.replicate 300001 (0 : ℚ))).map List.length).sum = 0
      ∧ (List.replicate 300001 (0 : ℚ)).length = 300001 :=
  ⟨convert_zeros, by rw [convert_zeros]; rfl, by rw [List.length_replicate]⟩

/-- C3 (amended): for audio longer than the chunk bound, the chunks are the
greedy regrouping of the silence splitter's segments: their concatenation
equals the concatenation of the splitter's output (no segment lost or
duplicated by the packing), the segments are slices of the padded
nonsilent ranges, and those ranges are non-overlapping and in original
order.  Audio inside detected silences beyond the 0.5 s kept on each side
is dropped by the splitter, so the chunks need not be contiguous and need
not reconstruct the original duration. -/
theorem claim_C3_amended (audio : AudioMs) (h : MAX_CHUNK_DURATION_MS < audio.length) :
    convert_and_split_audio audio = greedyLoop (split_on_silence audio) [] []
      ∧ (convert_and_split_audio audio).flatten = (split_on_silence audio).flatten
      ∧ split_on_silence audio = (outputRanges audio).map (fun r => sliceClamped audio r.1 r.2)
      ∧ List.Chain' (fun a b => a.2 ≤ b.1) (outputRanges audio) := by
  have hbranch : convert_and_split_audio audio = greedyLoop (split_on_silence audio) [] [] := by
    unfold convert_and_split_audio
    rw [if_neg (by omega)]
  refine ⟨hbranch, ?_, rfl, chain'_adjustOverlaps _⟩
  rw [hbranch, greedyLoop_flatten]
  simp

/-- C3 witness: the amended statement at the 300001 ms silent input. -/
theorem claim_C3_witness :
    convert_and_split_audio (List.replicate 300001 (0 : ℚ))
        = greedyLoop (split_on_silence (List.replicate 300001 (0 : ℚ))) [] []
      ∧ (convert_and_split_audio (List.replicate 300001 (0 : ℚ))).flatten
          = (split_on_silence (List.replicate 300001 (0 : ℚ))).flatten
      ∧ split_on_silence (List.replicate 300001 (0 : ℚ))
          = (outputRanges (List.replicate 300001 (0 : ℚ))).map
              (fun r => sliceClamped (List.replicate 300001 (0 : ℚ)) r.1 r.2)
      ∧ List.Chain' (fun a b => a.2 ≤ b.1) (outputRanges (List.replicate 300001 (0 : ℚ))) :=
  claim_C3_amended (List.replicate 300001 (0 : ℚ)) (by rw [List.length_replicate]; decide)

/-- C4: the code does not hard-cut oversized silence-delimited segments:
300001 ms of continuous loud audio (no silent window) is returned as a
single chunk of 300001 ms, exceeding `MAX_CHUNK_DURATION_MS = 300000`,
which contradicts the claimed bound on every chunk's duration. -/
theorem claim_C4_code_bug :
    convert_and_split_audio (List.replicate 300001 (1 : ℚ)) = [List.replicate 300001 (1 : ℚ)]
      ∧ ¬ (∀ c ∈ convert_and_split_audio (List.replicate 300001 (1 : ℚ)),
            c.length ≤ MAX_CHUNK_DURATION_MS) := by
  refine ⟨convert_ones, ?_⟩
  intro hall
  have hle := hall (List.replicate 300001 (1 : ℚ))
    (by rw [convert_ones]; exact List.mem_singleton.mpr rfl)
  rw [List.length_replicate] at hle
  exact absurd hle (by decide)

end EchoNote
